import Mathlib

/-!
Shallow embedding of the EEG preprocessing core of `src/utils/ctet_tools.py`
(CTET signal processing tools): session-metadata construction, raw-signal
scaling, the reference (CAR / specific-channel) operation, and the shape and
parameter contracts of the notch and bandpass filters.

Modelling conventions:
* A numpy 2-D `float64` array becomes a `List (List ℚ)` (rows = channels,
  columns = samples); exact rational arithmetic stands in for float64.
* numpy's in-place mutation (`data_copy -= ref_data`) and aliasing are made
  explicit with a store: a `Store` is a list of matrices, an array variable
  is an index into it, `.copy()` allocates a fresh cell.
* A Python `dict` built by a comprehension becomes an association list with
  Python's insert-or-overwrite semantics.
* Raised-and-caught errors (`KeyError` in `reference`) and raised errors
  (`ValueError` in `get_eeg_signal`) become `Option`/`Except` values.
* The external SciPy routines (`butter`, `sosfiltfilt`, `iirnotch`) are not
  part of this repository; the per-row zero-phase filter is a parameter
  `filtRow`, and the Butterworth parameter validation is modelled from the
  spec (see `butter_check`).
-/

namespace CtetTools

/-- A signal matrix: rows are channels, columns are samples. -/
abbrev Matrix := List (List ℚ)

/-- The heap of live numpy arrays; an array variable is an index into it. -/
abbrev Store := List Matrix

/-- `VOLTAGE_SCALING = 0.0715`, the OBCI amplifier scaling factor. -/
def VOLTAGE_SCALING : ℚ := 143 / 2000

/-- `data.shape[0]`: number of rows. -/
def matRows (m : Matrix) : ℕ := m.length

/-- `data.shape[1]`: number of columns (length of the first row; numpy
arrays are rectangular). -/
def matCols (m : Matrix) : ℕ := (m.headD []).length

/-- `data.size`: total number of elements. -/
def matSize (m : Matrix) : ℕ := (m.map List.length).sum

/-- Rectangularity: every row has the common column count.  This is the
invariant numpy's 2-D arrays keep by construction. -/
def Rect (m : Matrix) : Prop := ∀ r ∈ m, r.length = matCols m

instance decidableRect (m : Matrix) : Decidable (Rect m) := by
  unfold Rect; infer_instance

/-- `data[i][j]`, with 0 outside the bounds. -/
def matGet (m : Matrix) (i j : ℕ) : ℚ := (m.getD i []).getD j 0

/-- `data.T` for a rectangular matrix. -/
def matT (m : Matrix) : Matrix :=
  (List.range (matCols m)).map (fun j => m.map (fun r => r.getD j 0))

/-- `signal * VOLTAGE_SCALING`, elementwise (the effect of
`signal *= VOLTAGE_SCALING` on the array's value). -/
def matScale (m : Matrix) : Matrix :=
  m.map (fun r => r.map (fun x => x * VOLTAGE_SCALING))

/-- Python dict insertion: overwrite the value at an existing key in place,
otherwise append the new binding (preserving dict insertion order). -/
def pyDictInsert : List (String × ℕ) → String → ℕ → List (String × ℕ)
  | [], k, v => [(k, v)]
  | (k', v') :: rest, k, v =>
      if k' = k then (k, v) :: rest else (k', v') :: pyDictInsert rest k v

/-- Python dict lookup (`d[k]` / `d.get(k)`): value at the key, if present. -/
def pyDictGet (m : List (String × ℕ)) (k : String) : Option ℕ :=
  (m.find? (fun p => p.1 = k)).map Prod.snd

/-- `{name: i for i, name in enumerate(ch_names)}`. -/
def mkChannelMap (names : List String) : List (String × ℕ) :=
  names.enum.foldl (fun m p => pyDictInsert m p.2 p.1) []

/-- The `EEGMetadata` frozen dataclass (the opaque `tags` field is omitted:
it is passed through uninterpreted and no claim concerns it). -/
structure EEGMetadata where
  fs : ℚ
  num_channels : Int
  channel_names : List String
  channel_map : List (String × ℕ)

/-- The mapping returned by the reader's `get_params()`: each key either
absent (`none`) or present with a typed value. -/
structure SessionParams where
  sampling_frequency : Option ℚ
  number_of_channels : Option Int
  channel_names : Option (List String)

/-- `get_session_metadata`: builds `EEGMetadata` from the reader's params,
with defaults 512.0 for `sampling_frequency`, 0 for `number_of_channels`,
`[]` for `channel_names`, and the enumerate-comprehension channel map. -/
def get_session_metadata (params : SessionParams) : EEGMetadata :=
  let ch_names := params.channel_names.getD []
  { fs := params.sampling_frequency.getD 512
  , num_channels := params.number_of_channels.getD 0
  , channel_names := ch_names
  , channel_map := mkChannelMap ch_names }

/-- `get_eeg_signal`: the reader's samples (`none` models a `None` return),
checked non-empty, then scaled in place; the raised `ValueError` becomes
`Except.error`. -/
def get_eeg_signal (signal : Option Matrix) : Except String Matrix :=
  match signal with
  | none => .error "readManager returned empty signal data."
  | some s =>
      if matSize s = 0 then .error "readManager returned empty signal data."
      else .ok (matScale s)

/-- `np.mean(rows, axis=0)`: per-column mean across the given rows. -/
def npMean0 (rows : Matrix) : List ℚ :=
  (List.range (matCols rows)).map
    (fun j => ((rows.map (fun r => r.getD j 0)).sum) / (rows.length : ℚ))

/-- `m[idxs, :]`: row selection by a list of indices. -/
def matSelectRows (m : Matrix) (idxs : List ℕ) : Matrix :=
  idxs.map (fun i => m.getD i [])

/-- `m -= v` with numpy row broadcasting: subtract `v` from every row. -/
def matSubBroadcast (m : Matrix) (v : List ℚ) : Matrix :=
  m.map (fun r => List.zipWith (fun a b => a - b) r v)

/-- The list comprehension `[metadata.channel_map[ch] for ch in ref_channels]`:
resolves the names left to right; the first missing name is the `KeyError`. -/
def lookupAll (cm : List (String × ℕ)) : List String → Except String (List ℕ)
  | [] => .ok []
  | ch :: rest =>
      match pyDictGet cm ch with
      | none => .error ch
      | some i => (lookupAll cm rest).map (fun l => i :: l)

/-- Result of `reference`: the store after the call, the index of the
returned array, and the signalled (caught, not propagated) missing-channel
error, when any. -/
structure RefOut where
  store : Store
  outId : ℕ
  err : Option String

/-- `reference(data, metadata, ref_channels)` over the store model.
`data.copy()` allocates a fresh cell; a Python `None` or `[]` argument
(both falsy) selects the Common Average Reference; a missing channel name
is caught and the untouched copy is returned with the error recorded in
`err`; otherwise the per-column mean of the selected rows is subtracted
in place from the copy. -/
def reference (store : Store) (dataId : ℕ) (metadata : EEGMetadata)
    (ref_channels : Option (List String)) : RefOut :=
  let copyId := store.length
  let store1 := store ++ [store.getD dataId []]
  let sel : Except String (Option (List ℕ)) :=
    match ref_channels with
    | none => .ok none
    | some [] => .ok none
    | some chs => (lookupAll metadata.channel_map chs).map some
  match sel with
  | .error ch => ⟨store1, copyId, some ch⟩
  | .ok osel =>
      let data_copy := store1.getD copyId []
      let selected :=
        match osel with
        | none => data_copy
        | some idxs => matSelectRows data_copy idxs
      let ref_data := npMean0 selected
      ⟨store1.set copyId (matSubBroadcast data_copy ref_data), copyId, none⟩

/-- Defensive axis validation shared by both filters: transpose when the
row count exceeds the column count. -/
def shape_correct (data : Matrix) : Matrix :=
  if matCols data < matRows data then matT data else data

/-- Modelled from the spec: the parameter validation of the external
`scipy.signal.butter` Butterworth design, which is not part of this
repository.  Per the spec's BandpassFilter contract it fails with
`InvalidFilterParameterError` when `lowcut >= highcut`, either bound is
non-positive, or `highcut` exceeds the Nyquist frequency `fs/2`. -/
def butter_check (lowcut highcut fs : ℚ) : Except String Unit :=
  if highcut ≤ lowcut ∨ lowcut ≤ 0 ∨ highcut ≤ 0 ∨ fs / 2 < highcut then
    .error "InvalidFilterParameterError"
  else .ok ()

/-- `apply_bandpass_filter`: shape correction, Butterworth design
(parameter validation, see `butter_check`), then the external zero-phase
SOS filter — a parameter `filtRow` applied along the sample axis (per
row, `axis=-1`).  A design error is not caught and propagates. -/
def apply_bandpass_filter (filtRow : List ℚ → List ℚ) (data : Matrix)
    (fs lowcut highcut : ℚ) : Except String Matrix :=
  let d := shape_correct data
  match butter_check lowcut highcut fs with
  | .error e => .error e
  | .ok _ => .ok (d.map filtRow)

/-- `apply_notch_filter`: shape correction, then the external zero-phase
SOS notch filter applied along the sample axis (per row, `axis=-1`);
the notch design parameters do not touch the data path. -/
def apply_notch_filter (filtRow : List ℚ → List ℚ) (data : Matrix) : Matrix :=
  (shape_correct data).map filtRow

/-! ### List-level helper lemmas -/

theorem getD_map_default {α β : Type} (f : α → β) (d : α) :
    ∀ (l : List α) (i : ℕ), (l.map f).getD i (f d) = f (l.getD i d) := by
  intro l
  induction l with
  | nil => intro i; simp
  | cons a t ih =>
      intro i
      cases i with
      | zero => simp
      | succ n => simp [ih n]

theorem rangeMap_getD {α : Type} (f : ℕ → α) (d : α) :
    ∀ (n j : ℕ), j < n → ((List.range n).map f).getD j d = f j := by
  intro n j hj
  rw [List.getD_eq_getElem?_getD, List.getElem?_eq_getElem (by simpa using hj)]
  simp

theorem zipWith_sub_getD :
    ∀ (r v : List ℚ) (j : ℕ), j < r.length → j < v.length →
      (List.zipWith (fun a b => a - b) r v).getD j 0 = r.getD j 0 - v.getD j 0 := by
  intro r
  induction r with
  | nil => intro v j hj _; simp at hj
  | cons a t ih =>
      intro v j hj hv
      cases v with
      | nil => simp at hv
      | cons b w =>
          cases j with
          | zero => simp
          | succ n =>
              simp only [List.zipWith_cons_cons, List.getD_cons_succ]
              exact ih w n (by simpa using hj) (by simpa using hv)

theorem getD_append_left {α : Type} (l l' : List α) (d : α) (i : ℕ)
    (h : i < l.length) : (l ++ l').getD i d = l.getD i d := by
  rw [List.getD_eq_getElem?_getD, List.getD_eq_getElem?_getD,
    List.getElem?_append_left h]

theorem getD_append_length {α : Type} (l : List α) (x d : α) :
    (l ++ [x]).getD l.length d = x := by
  rw [List.getD_eq_getElem?_getD, List.getElem?_append_right (Nat.le_refl _)]
  simp

theorem getD_set_self {α : Type} (l : List α) (i : ℕ) (x d : α)
    (h : i < l.length) : (l.set i x).getD i d = x := by
  rw [List.getD_eq_getElem?_getD, List.getElem?_set_self]
  · simp
  · exact h

theorem getD_set_ne {α : Type} (l : List α) (i j : ℕ) (x d : α)
    (h : i ≠ j) : (l.set i x).getD j d = l.getD j d := by
  rw [List.getD_eq_getElem?_getD, List.getD_eq_getElem?_getD,
    List.getElem?_set_ne h]

theorem sum_map_sub_const {α : Type} (l : List α) (f : α → ℚ) (c : ℚ) :
    (l.map (fun r => f r - c)).sum = (l.map f).sum - (l.length : ℚ) * c := by
  induction l with
  | nil => simp
  | cons a t ih =>
      simp only [List.map_cons, List.sum_cons, ih, List.length_cons]
      push_cast
      ring

/-! ### Python-dict lemmas -/

theorem pyDictGet_insert_self (m : List (String × ℕ)) (k : String) (v : ℕ) :
    pyDictGet (pyDictInsert m k v) k = some v := by
  induction m with
  | nil => simp [pyDictInsert, pyDictGet]
  | cons p rest ih =>
      obtain ⟨k', v'⟩ := p
      by_cases h : k' = k
      · simp [pyDictInsert, pyDictGet, h]
      · simp only [pyDictInsert, if_neg h]
        simpa [pyDictGet, List.find?, h] using ih

theorem pyDictGet_insert_ne (m : List (String × ℕ)) (k k' : String) (v : ℕ)
    (h : k ≠ k') : pyDictGet (pyDictInsert m k v) k' = pyDictGet m k' := by
  induction m with
  | nil => simp [pyDictInsert, pyDictGet, List.find?, h]
  | cons p rest ih =>
      obtain ⟨ka, va⟩ := p
      by_cases hk : ka = k
      · subst hk
        simp [pyDictInsert, pyDictGet, List.find?, h]
      · simp only [pyDictInsert, if_neg hk]
        by_cases hk' : ka = k'
        · simp [pyDictGet, List.find?, hk']
        · simpa [pyDictGet, List.find?, hk'] using ih

theorem enumFrom_map_snd_eq {α : Type} :
    ∀ (l : List α) (k : ℕ), (List.enumFrom k l).map Prod.snd = l := by
  intro l
  induction l with
  | nil => intro k; rfl
  | cons a t ih => intro k; simp [List.enumFrom, ih]

theorem pyDictGet_foldl_not_mem (l : List (ℕ × String))
    (name : String) (h : name ∉ l.map Prod.snd) :
    ∀ m, pyDictGet (l.foldl (fun m p => pyDictInsert m p.2 p.1) m) name
      = pyDictGet m name := by
  induction l with
  | nil => intro m; rfl
  | cons p rest ih =>
      intro m
      simp only [List.map_cons, List.mem_cons, not_or] at h
      rw [List.foldl_cons, ih h.2, pyDictGet_insert_ne _ _ _ _ (fun e => h.1 e.symm)]

theorem pyDictGet_foldl_enumFrom (names : List String) :
    ∀ (k : ℕ) (m : List (String × ℕ)) (name : String),
      names.Nodup → name ∈ names →
      pyDictGet ((List.enumFrom k names).foldl
          (fun m p => pyDictInsert m p.2 p.1) m) name
        = some (k + List.indexOf name names) := by
  induction names with
  | nil => intro _ _ _ _ hmem; simp at hmem
  | cons n rest ih =>
      intro k m name hnd hmem
      rw [List.enumFrom, List.foldl_cons]
      rcases List.mem_cons.mp hmem with heq | hmem'
      · subst heq
        have hnotin : name ∉ rest := (List.nodup_cons.mp hnd).1
        rw [pyDictGet_foldl_not_mem _ _ (by rwa [enumFrom_map_snd_eq]),
          pyDictGet_insert_self, List.indexOf_cons_self]
        simp
      · have hne : n ≠ name := by
          rintro rfl
          exact (List.nodup_cons.mp hnd).1 hmem'
        rw [ih (k + 1) _ name (List.nodup_cons.mp hnd).2 hmem',
          List.indexOf_cons_ne _ hne]
        congr 1
        omega

/-- With duplicate-free names, the enumerate-comprehension dict maps each
name to its (unique, hence first) index. -/
theorem mkChannelMap_get_indexOf (names : List String) (name : String)
    (hnd : names.Nodup) (hmem : name ∈ names) :
    pyDictGet (mkChannelMap names) name = some (List.indexOf name names) := by
  have := pyDictGet_foldl_enumFrom names 0 [] name hnd hmem
  simpa [mkChannelMap, List.enum] using this

/-! ### `lookupAll` lemmas -/

theorem lookupAll_missing (cm : List (String × ℕ)) :
    ∀ chs : List String, (∃ ch ∈ chs, pyDictGet cm ch = none) →
      ∃ ch ∈ chs, lookupAll cm chs = .error ch ∧ pyDictGet cm ch = none := by
  intro chs
  induction chs with
  | nil => rintro ⟨ch, hm, _⟩; simp at hm
  | cons c rest ih =>
      rintro ⟨ch, hm, hnone⟩
      cases hc : pyDictGet cm c with
      | none => exact ⟨c, List.mem_cons_self c rest, by simp [lookupAll, hc], hc⟩
      | some i =>
          have hch : ch ∈ rest := by
            rcases List.mem_cons.mp hm with rfl | h
            · rw [hc] at hnone; exact absurd hnone (by simp)
            · exact h
          obtain ⟨x, hx, herr, hxnone⟩ := ih ⟨ch, hch, hnone⟩
          exact ⟨x, List.mem_cons_of_mem _ hx,
            by simp [lookupAll, hc, herr, Except.map], hxnone⟩

theorem lookupAll_ok_length (cm : List (String × ℕ)) :
    ∀ (chs : List String) (idxs : List ℕ),
      lookupAll cm chs = .ok idxs → idxs.length = chs.length := by
  intro chs
  induction chs with
  | nil => intro idxs h; simp [lookupAll] at h; simp [← h]
  | cons c rest ih =>
      intro idxs h
      cases hc : pyDictGet cm c with
      | none => rw [lookupAll, hc] at h; exact absurd h (by simp)
      | some i =>
          rw [lookupAll, hc] at h
          cases hrest : lookupAll cm rest with
          | error e => rw [hrest] at h; exact absurd h (by simp [Except.map])
          | ok l =>
              rw [hrest] at h
              simp only [Except.map, Except.ok.injEq] at h
              subst h
              simp [ih l hrest]

/-! ### `reference` unfolding lemmas -/

theorem reference_car_eq (store : Store) (dataId : ℕ) (metadata : EEGMetadata)
    (rc : Option (List String)) (hrc : rc = none ∨ rc = some []) :
    reference store dataId metadata rc
      = ⟨(store ++ [store.getD dataId []]).set store.length
           (matSubBroadcast (store.getD dataId [])
             (npMean0 (store.getD dataId []))),
         store.length, none⟩ := by
  rcases hrc with rfl | rfl <;>
    simp [reference, getD_append_length]

theorem reference_err_eq (store : Store) (dataId : ℕ) (metadata : EEGMetadata)
    (c : String) (rest : List String) (ch : String)
    (h : lookupAll metadata.channel_map (c :: rest) = .error ch) :
    reference store dataId metadata (some (c :: rest))
      = ⟨store ++ [store.getD dataId []], store.length, some ch⟩ := by
  simp [reference, h, Except.map]

theorem reference_ok_eq (store : Store) (dataId : ℕ) (metadata : EEGMetadata)
    (c : String) (rest : List String) (idxs : List ℕ)
    (h : lookupAll metadata.channel_map (c :: rest) = .ok idxs) :
    reference store dataId metadata (some (c :: rest))
      = ⟨(store ++ [store.getD dataId []]).set store.length
           (matSubBroadcast (store.getD dataId [])
             (npMean0 (matSelectRows (store.getD dataId []) idxs))),
         store.length, none⟩ := by
  simp [reference, h, Except.map, getD_append_length]

/-! ### Frame lemmas for the store -/

theorem store_getD_append (store : Store) (d : Matrix) (i : ℕ)
    (h : i < store.length) :
    (store ++ [d]).getD i [] = store.getD i [] :=
  getD_append_left store [d] [] i h

theorem store_getD_append_set (store : Store) (d x : Matrix) (i : ℕ)
    (h : i < store.length) :
    ((store ++ [d]).set store.length x).getD i [] = store.getD i [] := by
  rw [getD_set_ne _ _ _ _ _ (by omega), store_getD_append store d i h]

theorem store_getD_set_new (store : Store) (d x : Matrix) :
    ((store ++ [d]).set store.length x).getD store.length [] = x :=
  getD_set_self _ _ _ _ (by simp)

/-! ### Mean-subtraction algebra -/

theorem npMean0_length (sel : Matrix) : (npMean0 sel).length = matCols sel := by
  simp [npMean0]

theorem npMean0_getD (sel : Matrix) (j : ℕ) (hj : j < matCols sel) :
    (npMean0 sel).getD j 0
      = (sel.map (fun r => r.getD j 0)).sum / (sel.length : ℚ) :=
  rangeMap_getD _ _ _ _ hj

theorem getD_mem {α : Type} (l : List α) (i : ℕ) (d : α) (h : i < l.length) :
    l.getD i d ∈ l := by
  rw [List.getD_eq_getElem?_getD, List.getElem?_eq_getElem h]
  exact List.getElem_mem _

theorem subMean_get (data sel : Matrix) (hrect : Rect data)
    (hselcols : matCols sel = matCols data) (i j : ℕ)
    (hi : i < data.length) (hj : j < matCols data) :
    matGet (matSubBroadcast data (npMean0 sel)) i j
      = matGet data i j
        - (sel.map (fun r => r.getD j 0)).sum / (sel.length : ℚ) := by
  have hrow : (data.getD i []) ∈ data := getD_mem data i [] hi
  have hrowlen : j < (data.getD i []).length := by
    rw [hrect _ hrow]; exact hj
  have hvlen : j < (npMean0 sel).length := by
    rw [npMean0_length, hselcols]; exact hj
  have houter :
      (matSubBroadcast data (npMean0 sel)).getD i []
        = List.zipWith (fun a b => a - b) (data.getD i []) (npMean0 sel) := by
    have := getD_map_default
      (fun r => List.zipWith (fun a b => a - b) r (npMean0 sel)) [] data i
    simpa [matSubBroadcast] using this
  rw [matGet, houter, zipWith_sub_getD _ _ j hrowlen hvlen,
    npMean0_getD sel j (by rw [hselcols]; exact hj)]
  rfl

theorem sum_map_zip_sub (v : List ℚ) (j : ℕ) (hj : j < v.length) :
    ∀ data : Matrix, (∀ r ∈ data, j < r.length) →
      ((matSubBroadcast data v).map (fun r => r.getD j 0)).sum
        = (data.map (fun r => r.getD j 0)).sum
          - (data.length : ℚ) * v.getD j 0 := by
  intro data
  induction data with
  | nil => intro _; simp [matSubBroadcast]
  | cons r t ih =>
      intro hlen
      have hr : j < r.length := hlen r (List.mem_cons_self r t)
      simp only [matSubBroadcast, List.map_cons, List.sum_cons,
        List.length_cons]
      rw [zipWith_sub_getD r v j hr hj]
      have := ih (fun x hx => hlen x (List.mem_cons_of_mem r hx))
      simp only [matSubBroadcast] at this
      rw [this]
      push_cast
      ring

/-! ### Scaling lemmas -/

theorem matScale_getD_row (s : Matrix) (i : ℕ) :
    (matScale s).getD i [] = (s.getD i []).map (fun x => x * VOLTAGE_SCALING) := by
  have h := getD_map_default (fun r => r.map (fun x => x * VOLTAGE_SCALING)) [] s i
  simpa [matScale] using h

theorem matGet_scale (s : Matrix) (i j : ℕ) :
    matGet (matScale s) i j = matGet s i j * VOLTAGE_SCALING := by
  rw [matGet, matScale_getD_row]
  have h := getD_map_default (fun x => x * VOLTAGE_SCALING) 0 (s.getD i []) j
  rw [zero_mul] at h
  rw [h]
  rfl

/-! ### Shape lemmas for the filters -/

theorem map_filtRow_dims (filtRow : List ℚ → List ℚ)
    (hlen : ∀ r, (filtRow r).length = r.length) (m : Matrix) :
    matRows (m.map filtRow) = matRows m ∧ matCols (m.map filtRow) = matCols m := by
  constructor
  · simp [matRows]
  · cases m with
    | nil => rfl
    | cons r t => simp [matCols, hlen]

theorem matT_dims (m : Matrix) (h : 0 < matCols m) :
    matRows (matT m) = matCols m ∧ matCols (matT m) = matRows m := by
  constructor
  · simp [matRows, matT]
  · obtain ⟨k, hk⟩ : ∃ k, matCols m = k + 1 := ⟨matCols m - 1, by omega⟩
    rw [matCols, matT, hk, List.range_succ_eq_map]
    simp [matRows]

theorem shape_correct_transposed (data : Matrix)
    (h : matCols data < matRows data) : shape_correct data = matT data :=
  if_pos h

theorem shape_correct_kept (data : Matrix)
    (h : matRows data ≤ matCols data) : shape_correct data = data :=
  if_neg (by omega)

theorem bandpass_ok_out (filtRow : List ℚ → List ℚ) (data : Matrix)
    (fs lowcut highcut : ℚ) (out : Matrix)
    (h : apply_bandpass_filter filtRow data fs lowcut highcut = .ok out) :
    out = (shape_correct data).map filtRow := by
  cases hb : butter_check lowcut highcut fs with
  | error e => simp [apply_bandpass_filter, hb] at h
  | ok u => simp [apply_bandpass_filter, hb] at h; exact h.symm

/-! ### Claim theorems -/

/-- C4: for every non-empty raw signal matrix, `get_eeg_signal` succeeds and
returns a matrix of the same shape in which every element equals the
corresponding input element multiplied by the constant 0.0715 (purely
multiplicative), so dividing the output elementwise by 0.0715 recovers the
input exactly. -/
theorem get_eeg_signal_scales (s : Matrix) (h : matSize s ≠ 0) :
    get_eeg_signal (some s) = .ok (matScale s)
    ∧ (matScale s).length = s.length
    ∧ (∀ i, ((matScale s).getD i []).length = (s.getD i []).length)
    ∧ (∀ i j, matGet (matScale s) i j = matGet s i j * VOLTAGE_SCALING)
    ∧ (∀ i j, matGet (matScale s) i j / VOLTAGE_SCALING = matGet s i j) := by
  refine ⟨by simp [get_eeg_signal, h], by simp [matScale], ?_, ?_, ?_⟩
  · intro i
    rw [matScale_getD_row]
    simp
  · intro i j
    exact matGet_scale s i j
  · intro i j
    rw [matGet_scale]
    exact mul_div_cancel_right₀ _ (by norm_num [VOLTAGE_SCALING])

/-- Witness for C4 at the concrete matrix `[[2]]`. -/
theorem get_eeg_signal_scales_witness :
    matSize [[(2 : ℚ)]] ≠ 0
    ∧ get_eeg_signal (some [[(2 : ℚ)]]) = .ok (matScale [[(2 : ℚ)]]) :=
  ⟨by decide, (get_eeg_signal_scales [[(2 : ℚ)]] (by decide)).1⟩

/-- C5: `get_eeg_signal` fails (with the empty-signal error) if and only if
the reader yields an absent (`None`) or zero-size matrix; on every matrix
with at least one element it succeeds and returns the scaled matrix. -/
theorem get_eeg_signal_empty_iff :
    (∀ sig : Option Matrix,
       (∃ e, get_eeg_signal sig = .error e)
         ↔ sig = none ∨ ∃ s, sig = some s ∧ matSize s = 0)
    ∧ ∀ s : Matrix, matSize s ≠ 0 →
        get_eeg_signal (some s) = .ok (matScale s) := by
  constructor
  · intro sig
    cases sig with
    | none => simp [get_eeg_signal]
    | some s =>
        by_cases h : matSize s = 0 <;> simp [get_eeg_signal, h]
  · intro s h
    simp [get_eeg_signal, h]

/-- Witness for C5 at the concrete matrix `[[1]]`. -/
theorem get_eeg_signal_empty_iff_witness :
    matSize [[(1 : ℚ)]] ≠ 0
    ∧ get_eeg_signal (some [[(1 : ℚ)]]) = .ok (matScale [[(1 : ℚ)]]) :=
  ⟨by decide, get_eeg_signal_empty_iff.2 [[(1 : ℚ)]] (by decide)⟩

/-- C6: for every input matrix and every sampling rate `fs > 0`, the
bandpass operation returns the (uncaught, hence propagated)
`InvalidFilterParameterError` whenever `lowcut >= highcut`, either bound is
non-positive, or `highcut` exceeds the Nyquist frequency `fs/2`.  The
parameter validation itself is `butter_check`, modelled from the spec
(the SciPy design routine is external to the repository). -/
theorem apply_bandpass_filter_invalid_params (filtRow : List ℚ → List ℚ)
    (data : Matrix) (fs lowcut highcut : ℚ) (_hfs : 0 < fs)
    (h : highcut ≤ lowcut ∨ lowcut ≤ 0 ∨ highcut ≤ 0 ∨ fs / 2 < highcut) :
    apply_bandpass_filter filtRow data fs lowcut highcut
      = .error "InvalidFilterParameterError" := by
  simp [apply_bandpass_filter, butter_check, if_pos h]

/-- Witness for C6 at `lowcut = highcut = 40`, `fs = 512`. -/
theorem apply_bandpass_filter_invalid_params_witness :
    (0 : ℚ) < 512
    ∧ ((40 : ℚ) ≤ 40 ∨ (40 : ℚ) ≤ 0 ∨ (40 : ℚ) ≤ 0 ∨ (512 : ℚ) / 2 < 40)
    ∧ apply_bandpass_filter (fun r => r) [[(1 : ℚ), 2]] 512 40 40
        = .error "InvalidFilterParameterError" :=
  ⟨by norm_num, Or.inl le_rfl,
    apply_bandpass_filter_invalid_params (fun r => r) [[(1 : ℚ), 2]] 512 40 40
      (by norm_num) (Or.inl le_rfl)⟩

/-- C7: for both the notch and the bandpass operation, an input with
strictly more rows than columns is transposed before filtering (so shape
`[r, c]` with `r > c` yields shape `[c, r]`), and an input with
`rows ≤ columns` keeps its shape, the per-row filter being
length-preserving. -/
theorem filters_shape (filtRow : List ℚ → List ℚ)
    (hlen : ∀ r, (filtRow r).length = r.length) (data : Matrix) :
    (matCols data < matRows data → 0 < matCols data →
       (matRows (apply_notch_filter filtRow data) = matCols data
        ∧ matCols (apply_notch_filter filtRow data) = matRows data)
       ∧ ∀ fs lowcut highcut out,
           apply_bandpass_filter filtRow data fs lowcut highcut = .ok out →
           matRows out = matCols data ∧ matCols out = matRows data)
    ∧ (matRows data ≤ matCols data →
       (matRows (apply_notch_filter filtRow data) = matRows data
        ∧ matCols (apply_notch_filter filtRow data) = matCols data)
       ∧ ∀ fs lowcut highcut out,
           apply_bandpass_filter filtRow data fs lowcut highcut = .ok out →
           matRows out = matRows data ∧ matCols out = matCols data) := by
  constructor
  · intro hgt hpos
    have hT := matT_dims data hpos
    have hnotch :
        matRows (apply_notch_filter filtRow data) = matCols data
        ∧ matCols (apply_notch_filter filtRow data) = matRows data := by
      rw [apply_notch_filter, shape_correct_transposed data hgt]
      have hm := map_filtRow_dims filtRow hlen (matT data)
      exact ⟨hm.1.trans hT.1, hm.2.trans hT.2⟩
    refine ⟨hnotch, ?_⟩
    intro fs lowcut highcut out hout
    rw [bandpass_ok_out filtRow data fs lowcut highcut out hout,
      shape_correct_transposed data hgt]
    have hm := map_filtRow_dims filtRow hlen (matT data)
    exact ⟨hm.1.trans hT.1, hm.2.trans hT.2⟩
  · intro hle
    have hnotch :
        matRows (apply_notch_filter filtRow data) = matRows data
        ∧ matCols (apply_notch_filter filtRow data) = matCols data := by
      rw [apply_notch_filter, shape_correct_kept data hle]
      exact map_filtRow_dims filtRow hlen data
    refine ⟨hnotch, ?_⟩
    intro fs lowcut highcut out hout
    rw [bandpass_ok_out filtRow data fs lowcut highcut out hout,
      shape_correct_kept data hle]
    exact map_filtRow_dims filtRow hlen data

/-- Witness for C7 at the 3×2 matrix `[[1,2],[3,4],[5,6]]` (rows > columns)
with the identity per-row filter. -/
theorem filters_shape_witness :
    (∀ r : List ℚ, ((fun x => x) r).length = r.length)
    ∧ matCols [[(1 : ℚ), 2], [3, 4], [5, 6]]
        < matRows [[(1 : ℚ), 2], [3, 4], [5, 6]]
    ∧ 0 < matCols [[(1 : ℚ), 2], [3, 4], [5, 6]]
    ∧ matRows (apply_notch_filter (fun x => x) [[(1 : ℚ), 2], [3, 4], [5, 6]])
        = matCols [[(1 : ℚ), 2], [3, 4], [5, 6]]
    ∧ matCols (apply_notch_filter (fun x => x) [[(1 : ℚ), 2], [3, 4], [5, 6]])
        = matRows [[(1 : ℚ), 2], [3, 4], [5, 6]] :=
  ⟨fun _ => rfl, by decide, by decide,
    (((filters_shape (fun x => x) (fun _ => rfl)
        [[(1 : ℚ), 2], [3, 4], [5, 6]]).1 (by decide) (by decide)).1).1,
    (((filters_shape (fun x => x) (fun _ => rfl)
        [[(1 : ℚ), 2], [3, 4], [5, 6]]).1 (by decide) (by decide)).1).2⟩

/-- C8 counterexample: with duplicated channel names `["A","A"]` the
enumerate-comprehension dict keeps the index of the *last* occurrence, so
`channelIndex["A"] = 1` while `channelNames.indexOf("A") = 0`: the claim's
first-occurrence invariant fails on the constructed metadata. -/
theorem channel_map_first_occurrence_cex :
    pyDictGet (get_session_metadata
        ⟨none, none, some ["A", "A"]⟩).channel_map "A"
      ≠ some (List.indexOf "A"
          (get_session_metadata ⟨none, none, some ["A", "A"]⟩).channel_names) := by
  decide

/-- C8 (amended): when the constructed `channel_names` has no duplicate
names, the constructed `channel_map` maps every occurring name to its
(unique, hence first) index, `channelNames.indexOf(name)`; with duplicates
the comprehension keeps the last occurrence instead. -/
theorem channel_map_indexOf_of_nodup (params : SessionParams)
    (hnd : (get_session_metadata params).channel_names.Nodup)
    (name : String)
    (hmem : name ∈ (get_session_metadata params).channel_names) :
    pyDictGet (get_session_metadata params).channel_map name
      = some (List.indexOf name (get_session_metadata params).channel_names) :=
  mkChannelMap_get_indexOf _ name hnd hmem

/-- Witness for the amended C8 at `channel_names = ["A","B"]`, `name = "B"`. -/
theorem channel_map_indexOf_of_nodup_witness :
    (get_session_metadata ⟨none, none, some ["A", "B"]⟩).channel_names.Nodup
    ∧ "B" ∈ (get_session_metadata ⟨none, none, some ["A", "B"]⟩).channel_names
    ∧ pyDictGet (get_session_metadata
          ⟨none, none, some ["A", "B"]⟩).channel_map "B"
        = some (List.indexOf "B"
            (get_session_metadata ⟨none, none, some ["A", "B"]⟩).channel_names) :=
  ⟨by decide, by decide,
    channel_map_indexOf_of_nodup ⟨none, none, some ["A", "B"]⟩
      (by decide) "B" (by decide)⟩

/-- C9 counterexample: with `channel_names = ["A"]` and the reader's
`number_of_channels` key absent, the constructed metadata has
`num_channels = 0` while `channel_names` has length 1: the code copies the
reader's count (default 0) and never reconciles it with the name list. -/
theorem channel_count_cex :
    (get_session_metadata ⟨none, none, some ["A"]⟩).num_channels
      ≠ ((get_session_metadata
            ⟨none, none, some ["A"]⟩).channel_names.length : Int) := by
  decide

/-- C9 (amended): the constructed `num_channels` always equals the reader's
`number_of_channels` value (default 0 when the key is absent), and the
`channelCount == len(channelNames)` invariant holds exactly when the reader
supplies a count consistent with its `channel_names`. -/
theorem channel_count_eq_reader_value (params : SessionParams) :
    (get_session_metadata params).num_channels
        = params.number_of_channels.getD 0
    ∧ ((get_session_metadata params).num_channels
          = ((get_session_metadata params).channel_names.length : Int)
        ↔ params.number_of_channels.getD 0
            = (((params.channel_names.getD []).length : ℕ) : Int)) :=
  ⟨rfl, Iff.rfl⟩

/-- C10: metadata construction is total over missing keys: with
`channel_names` absent it yields an empty name list and an empty channel
map, `fs` defaulting to 512 and `num_channels` to 0 when those keys are
also absent. -/
theorem metadata_total_defaults (params : SessionParams)
    (h : params.channel_names = none) :
    (get_session_metadata params).channel_names = []
    ∧ (get_session_metadata params).channel_map = []
    ∧ (params.sampling_frequency = none →
        (get_session_metadata params).fs = 512)
    ∧ (params.number_of_channels = none →
        (get_session_metadata params).num_channels = 0) := by
  refine ⟨?_, ?_, ?_, ?_⟩
  · simp [get_session_metadata, h]
  · simp [get_session_metadata, h, mkChannelMap]
  · intro hf; simp [get_session_metadata, hf]
  · intro hn; simp [get_session_metadata, hn]

/-- Witness for C10 at the fully empty params mapping. -/
theorem metadata_total_defaults_witness :
    (⟨none, none, none⟩ : SessionParams).channel_names = none
    ∧ (get_session_metadata ⟨none, none, none⟩).channel_names = []
    ∧ (get_session_metadata ⟨none, none, none⟩).channel_map = []
    ∧ (get_session_metadata ⟨none, none, none⟩).fs = 512
    ∧ (get_session_metadata ⟨none, none, none⟩).num_channels = 0 := by
  have h := metadata_total_defaults ⟨none, none, none⟩ rfl
  exact ⟨rfl, h.1, h.2.1, h.2.2.1 rfl, h.2.2.2 rfl⟩

/-! ### Result-matrix helper theorems for `reference` -/

theorem reference_car_result (store : Store) (dataId : ℕ)
    (metadata : EEGMetadata) (rc : Option (List String))
    (hrc : rc = none ∨ rc = some []) :
    (reference store dataId metadata rc).store.getD
        (reference store dataId metadata rc).outId []
      = matSubBroadcast (store.getD dataId [])
          (npMean0 (store.getD dataId [])) := by
  rw [reference_car_eq store dataId metadata rc hrc]
  exact store_getD_set_new store _ _

theorem reference_sel_result (store : Store) (dataId : ℕ)
    (metadata : EEGMetadata) (c : String) (rest : List String)
    (idxs : List ℕ)
    (hla : lookupAll metadata.channel_map (c :: rest) = .ok idxs) :
    (reference store dataId metadata (some (c :: rest))).store.getD
        (reference store dataId metadata (some (c :: rest))).outId []
      = matSubBroadcast (store.getD dataId [])
          (npMean0 (matSelectRows (store.getD dataId []) idxs)) := by
  rw [reference_ok_eq store dataId metadata c rest idxs hla]
  exact store_getD_set_new store _ _

/-- C1: for every input matrix and every refChannels list containing a name
absent from the metadata's channel map, `reference` returns (at `outId`) a
matrix elementwise equal to the input, records the missing channel name in
`err` (the caught-and-logged `KeyError`, never propagated — the function
returns normally), and leaves the referencing unapplied. -/
theorem reference_missing_channel (store : Store) (dataId : ℕ)
    (metadata : EEGMetadata) (chs : List String)
    (hmiss : ∃ ch ∈ chs, pyDictGet metadata.channel_map ch = none) :
    (reference store dataId metadata (some chs)).store.getD
        (reference store dataId metadata (some chs)).outId []
      = store.getD dataId []
    ∧ ∃ ch ∈ chs,
        (reference store dataId metadata (some chs)).err = some ch
        ∧ pyDictGet metadata.channel_map ch = none := by
  cases chs with
  | nil =>
      obtain ⟨ch, hm, _⟩ := hmiss
      simp at hm
  | cons c rest =>
      obtain ⟨ch, hmem, herr, hnone⟩ :=
        lookupAll_missing metadata.channel_map (c :: rest) hmiss
      rw [reference_err_eq store dataId metadata c rest ch herr]
      exact ⟨getD_append_length store _ [], ch, hmem, rfl, hnone⟩

/-- Witness for C1: one channel `"a"`, requested reference channel `"z"`. -/
theorem reference_missing_channel_witness :
    (∃ ch ∈ ["z"], pyDictGet (get_session_metadata
        ⟨none, none, some ["a"]⟩).channel_map ch = none)
    ∧ (reference [[[(1 : ℚ), 2]]] 0
          (get_session_metadata ⟨none, none, some ["a"]⟩)
          (some ["z"])).store.getD
        (reference [[[(1 : ℚ), 2]]] 0
          (get_session_metadata ⟨none, none, some ["a"]⟩)
          (some ["z"])).outId []
      = [[[(1 : ℚ), 2]]].getD 0 [] :=
  ⟨by decide,
    (reference_missing_channel [[[(1 : ℚ), 2]]] 0
      (get_session_metadata ⟨none, none, some ["a"]⟩) ["z"] (by decide)).1⟩

/-- C3: `reference` never mutates the caller's matrix: every array cell
that existed in the store before the call — in particular the input at
`dataId` — holds the same matrix after the call, on the CAR path, the
specific-channel path and the missing-channel path alike. -/
theorem reference_no_mutation (store : Store) (dataId : ℕ)
    (metadata : EEGMetadata) (rc : Option (List String)) (i : ℕ)
    (h : i < store.length) :
    (reference store dataId metadata rc).store.getD i []
      = store.getD i [] := by
  rcases rc with _ | chs
  · rw [reference_car_eq store dataId metadata none (Or.inl rfl)]
    exact store_getD_append_set store _ _ i h
  · cases chs with
    | nil =>
        rw [reference_car_eq store dataId metadata (some []) (Or.inr rfl)]
        exact store_getD_append_set store _ _ i h
    | cons c rest =>
        cases hla : lookupAll metadata.channel_map (c :: rest) with
        | error ch =>
            rw [reference_err_eq store dataId metadata c rest ch hla]
            exact store_getD_append store _ i h
        | ok idxs =>
            rw [reference_ok_eq store dataId metadata c rest idxs hla]
            exact store_getD_append_set store _ _ i h

/-- Witness for C3: a one-cell store, CAR call, cell 0 unchanged. -/
theorem reference_no_mutation_witness :
    0 < ([[[(1 : ℚ), 2], [3, 6]]] : Store).length
    ∧ (reference [[[(1 : ℚ), 2], [3, 6]]] 0
          (get_session_metadata ⟨none, none, some ["a", "b"]⟩)
          none).store.getD 0 []
      = [[[(1 : ℚ), 2], [3, 6]]].getD 0 [] :=
  ⟨by decide,
    reference_no_mutation [[[(1 : ℚ), 2], [3, 6]]] 0
      (get_session_metadata ⟨none, none, some ["a", "b"]⟩) none 0 (by decide)⟩

/-- C2: on a rectangular non-empty matrix, `reference` with an empty or
absent refChannels argument subtracts the per-column mean across all rows
from every row — so every column of the result sums (hence averages) to
zero in exact arithmetic — and with a fully resolving non-empty
refChannels it subtracts the per-column mean of only the selected rows
from every row, the reference rows included. -/
theorem reference_subtracts_mean (store : Store) (dataId : ℕ)
    (metadata : EEGMetadata) (data : Matrix)
    (hdata : store.getD dataId [] = data)
    (hrect : Rect data) (hne : data ≠ []) :
    (∀ rc : Option (List String), rc = none ∨ rc = some [] →
       (∀ i j, i < matRows data → j < matCols data →
          matGet ((reference store dataId metadata rc).store.getD
              (reference store dataId metadata rc).outId []) i j
            = matGet data i j
              - (data.map (fun r => r.getD j 0)).sum / (matRows data : ℚ))
       ∧ (∀ j, j < matCols data →
           (((reference store dataId metadata rc).store.getD
              (reference store dataId metadata rc).outId []).map
                (fun r => r.getD j 0)).sum = 0))
    ∧ ∀ (chs : List String) (idxs : List ℕ), chs ≠ [] →
        lookupAll metadata.channel_map chs = .ok idxs →
        (∀ k ∈ idxs, k < matRows data) →
        ∀ i j, i < matRows data → j < matCols data →
          matGet ((reference store dataId metadata (some chs)).store.getD
              (reference store dataId metadata (some chs)).outId []) i j
            = matGet data i j
              - (idxs.map (fun k => matGet data k j)).sum
                / (idxs.length : ℚ) := by
  have hn : (data.length : ℚ) ≠ 0 := by
    have hpos : 0 < data.length := List.length_pos.mpr hne
    have hne0 : data.length ≠ 0 := by omega
    exact_mod_cast hne0
  constructor
  · intro rc hrc
    constructor
    · intro i j hi hj
      rw [reference_car_result store dataId metadata rc hrc, hdata]
      exact subMean_get data data hrect rfl i j hi hj
    · intro j hj
      rw [reference_car_result store dataId metadata rc hrc, hdata]
      have hv : j < (npMean0 data).length := by
        rw [npMean0_length]; exact hj
      rw [sum_map_zip_sub (npMean0 data) j hv data
          (fun r hr => by rw [hrect r hr]; exact hj),
        npMean0_getD data j hj]
      field_simp
  · intro chs idxs hchne hla hbound i j hi hj
    cases chs with
    | nil => exact absurd rfl hchne
    | cons c rest =>
        have hidne : idxs ≠ [] := by
          have hl := lookupAll_ok_length metadata.channel_map (c :: rest) idxs hla
          intro h0
          rw [h0] at hl
          simp at hl
        cases idxs with
        | nil => exact absurd rfl hidne
        | cons k0 ks =>
            rw [reference_sel_result store dataId metadata c rest (k0 :: ks) hla,
              hdata]
            have hk0 : k0 < data.length :=
              hbound k0 (List.mem_cons_self k0 ks)
            have hcols : matCols (matSelectRows data (k0 :: ks)) = matCols data := by
              have : matCols (matSelectRows data (k0 :: ks))
                  = (data.getD k0 []).length := by
                simp [matCols, matSelectRows]
              rw [this]
              exact hrect _ (getD_mem data k0 [] hk0)
            rw [subMean_get data (matSelectRows data (k0 :: ks)) hrect hcols i j hi hj]
            have hmap : (matSelectRows data (k0 :: ks)).map (fun r => r.getD j 0)
                = (k0 :: ks).map (fun k => matGet data k j) := by
              rw [matSelectRows, List.map_map]
              rfl
            have hlen2 : (matSelectRows data (k0 :: ks)).length
                = (k0 :: ks).length := by
              simp [matSelectRows]
            rw [hmap, hlen2]

/-- Witness for C2: CAR on the 2×2 matrix `[[1,2],[3,6]]`; column 0 of the
result sums to zero. -/
theorem reference_subtracts_mean_witness :
    ([[[(1 : ℚ), 2], [3, 6]]] : Store).getD 0 [] = [[(1 : ℚ), 2], [3, 6]]
    ∧ Rect [[(1 : ℚ), 2], [3, 6]]
    ∧ ([[(1 : ℚ), 2], [3, 6]] : Matrix) ≠ []
    ∧ (((reference [[[(1 : ℚ), 2], [3, 6]]] 0
          (get_session_metadata ⟨none, none, some ["a", "b"]⟩)
          none).store.getD
          (reference [[[(1 : ℚ), 2], [3, 6]]] 0
            (get_session_metadata ⟨none, none, some ["a", "b"]⟩)
            none).outId []).map (fun r => r.getD 0 0)).sum = 0 :=
  ⟨rfl, by decide, by decide,
    ((reference_subtracts_mean [[[(1 : ℚ), 2], [3, 6]]] 0
        (get_session_metadata ⟨none, none, some ["a", "b"]⟩)
        [[(1 : ℚ), 2], [3, 6]] rfl (by decide) (by decide)).1 none
      (Or.inl rfl)).2 0 (by decide)⟩

end CtetTools
